import Mathlib

/-!
Verification of the SRT subtitle helpers of the HifdhApp player
(`normalizeTimeString`, `timeToMs`, `parseTimingLine`, `parseSrt`,
`findCueIndex` from `src/app/_layout.js`).

Strings are modelled as `List Char`; JavaScript numbers as `Nat`/`Int`
(all values involved stay far below 2^53, where JS integer arithmetic
is exact).  Regular expressions are modelled by deterministic matchers
that implement the exact backtracking behaviour of the concrete
patterns used in the source.
-/

namespace Hifdh

/-! ## Character classes used by the source's regular expressions -/

/-- `BIDI_MARKS_RE = /[‎‏‪-‮⁦-⁩]/g` -/
def isBidiMark (c : Char) : Bool :=
  c = '\u200E' || c = '\u200F' ||
  ('\u202A' ≤ c && c ≤ '\u202E') ||
  ('\u2066' ≤ c && c ≤ '\u2069')

/-- `ZERO_WIDTH_RE = /[​‌‍⁠﻿]/g` -/
def isZeroWidth (c : Char) : Bool :=
  c = '\u200B' || c = '\u200C' || c = '\u200D' || c = '\u2060' || c = '\uFEFF'

/-- `WEIRD_SPACES_RE = /[\u00A0 ᠎ -   　]/g` -/
def isWeirdSpace (c : Char) : Bool :=
  c = '\u00A0' || c = '\u1680' || c = '\u180E' ||
  ('\u2000' ≤ c && c ≤ '\u200A') ||
  c = '\u202F' || c = '\u205F' || c = '\u3000'

/-- The ECMAScript whitespace class `\s` (also the set stripped by
`String.prototype.trim` / `trimEnd`): tab, line feed, vertical tab,
form feed, carriage return, space, NBSP, ogham space, the U+2000–200A
spaces, line/paragraph separator, narrow NBSP, math space, ideographic
space and the BOM. -/
def isJsWs (c : Char) : Bool :=
  c = '\t' || c = '\n' || c = '\u000B' || c = '\u000C' || c = '\r' ||
  c = ' ' || c = '\u00A0' || c = '\u1680' ||
  ('\u2000' ≤ c && c ≤ '\u200A') ||
  c = '\u2028' || c = '\u2029' || c = '\u202F' || c = '\u205F' ||
  c = '\u3000' || c = '\uFEFF'

/-- The chain of Arabic-punctuation `.replace` calls in
`normalizeTimeString`: each rewrites a single character to a single
ASCII character, except U+066C which is deleted (`none`). -/
def arabicPunct (c : Char) : Option Char :=
  if c = '\u060C' then some ',' else
  if c = '\u066B' then some ',' else
  if c = '\u066C' then none else
  if c = '\uFF0C' then some ',' else
  if c = '\uFE10' then some ',' else
  if c = '\uFE11' then some ',' else
  if c = '\uFF1A' then some ':' else
  if c = '\uFE13' then some ':' else
  if c = '\uFE55' then some ':' else
  if c = '\u2236' then some ':' else some c

/-- The two Arabic-digit `.replace` calls: `٠`–`٩` and `۰`–`۹` map to
the western digit with the same value (`String(code - 0x0660)` resp.
`String(code - 0x06F0)`). -/
def arabicDigit (c : Char) : Char :=
  if '\u0660' ≤ c && c ≤ '\u0669' then Char.ofNat (c.toNat - 0x0660 + 48)
  else if '\u06F0' ≤ c && c ≤ '\u06F9' then Char.ofNat (c.toNat - 0x06F0 + 48)
  else c

/-- `normalizeTimeString`: remove bidi marks and zero-width characters,
rewrite exotic spaces to plain spaces, normalize Arabic punctuation and
digits, then delete all whitespace.  The trailing `.trim()` of the
source is a no-op because every character it could strip is in `\s`
and has just been removed. -/
def normalizeTimeString (raw : List Char) : List Char :=
  let s1 := (raw.filter (fun c => !isBidiMark c)).filter (fun c => !isZeroWidth c)
  let s2 := s1.map (fun c => if isWeirdSpace c then ' ' else c)
  let s3 := s2.filterMap arabicPunct
  let s4 := s3.map arabicDigit
  s4.filter (fun c => !isJsWs c)

/-! ## Timestamp matching (`timeToMs` and the timing-line regex) -/

def isDigitChar (c : Char) : Bool := '0' ≤ c && c ≤ '9'

/-- `Number` on a string of decimal digits. -/
def digitsToNat (l : List Char) : Nat :=
  l.foldl (fun n c => 10 * n + (c.toNat - 48)) 0

/-- Matcher for the fixed fragment `\d+:\d{2}:\d{2}[.,]` of the
timestamp pattern, anchored at the head of the list.  Returns the
hour digits, minute digits, second digits, the separator character and
the unconsumed remainder.  `\d+` can be matched by maximal munch: a
shorter choice would put a digit where `:` is required. -/
def matchFixed (l : List Char) : Option (List Char × List Char × List Char × Char × List Char) :=
  let h := l.takeWhile isDigitChar
  let r := l.dropWhile isDigitChar
  if h.isEmpty then none else
  match r with
  | ':' :: m1 :: m2 :: ':' :: s1 :: s2 :: sep :: rest =>
    if isDigitChar m1 && isDigitChar m2 && isDigitChar s1 && isDigitChar s2 &&
       (sep = '.' || sep = ',')
    then some (h, [m1, m2], [s1, s2], sep, rest)
    else none
  | _ => none

/-- Greedy `\d{1,3}` with nothing after it: up to three leading digits. -/
def takeFrac (l : List Char) : List Char :=
  (l.takeWhile isDigitChar).take 3

/-- The anchored match `t.match(/^(\d+):(\d{2}):(\d{2})[.,](\d{1,3})/)`
of `timeToMs`, returning the four capture groups. -/
def matchTimePrefix (t : List Char) : Option (List Char × List Char × List Char × List Char) :=
  match matchFixed t with
  | none => none
  | some (h, m, s, _, rest) =>
    let f := takeFrac rest
    if f.isEmpty then none else some (h, m, s, f)

/-- `m[4].padEnd(3, "0")`. -/
def padFrac (f : List Char) : List Char :=
  f ++ List.replicate (3 - f.length) '0'

/-- `timeToMs`: normalize, match the timestamp prefix, return
`((hh*60+mm)*60+ss)*1000 + ms` (0 when the pattern does not match). -/
def timeToMs (raw : List Char) : Nat :=
  let t := normalizeTimeString raw
  match matchTimePrefix t with
  | none => 0
  | some (h, m, s, f) =>
    ((digitsToNat h * 60 + digitsToNat m) * 60 + digitsToNat s) * 1000 +
      digitsToNat (padFrac f)

/-- One of the arrow alternatives `-->|—>|–>` at the head of the list.
The alternatives start with distinct characters, so the alternation is
deterministic. -/
def matchArrow (l : List Char) : Option (List Char) :=
  match l with
  | '-' :: '-' :: '>' :: rest => some rest
  | '\u2014' :: '>' :: rest => some rest
  | '\u2013' :: '>' :: rest => some rest
  | _ => none

/-- The candidate splits of a greedy `\d{1,3}` group, in backtracking
order (longest first), each paired with the remainder. -/
def fracCandidates (l : List Char) : List (List Char × List Char) :=
  let n := ((l.takeWhile isDigitChar).take 3).length
  (List.range n).map (fun k => (l.take (n - k), l.drop (n - k)))

/-- One attempt of the timing-line regex
`/(\d+:\d{2}:\d{2}[.,]\d{1,3})(?:-->|—>|–>)(\d+:\d{2}:\d{2}[.,]\d{1,3})/`
anchored at the head; returns the two captured timestamp substrings.
Only the first `\d{1,3}` group can backtrack (the candidates are tried
longest first, as the regex engine does). -/
def matchPairAt (l : List Char) : Option (List Char × List Char) :=
  match matchFixed l with
  | none => none
  | some (h1, m1, s1, sep1, rest1) =>
    (fracCandidates rest1).findSome? (fun fr =>
      match matchArrow fr.2 with
      | none => none
      | some after2 =>
        match matchFixed after2 with
        | none => none
        | some (h2, m2, s2, sep2, rest2) =>
          let f2 := takeFrac rest2
          if f2.isEmpty then none
          else some (h1 ++ ':' :: m1 ++ ':' :: s1 ++ sep1 :: fr.1,
                     h2 ++ ':' :: m2 ++ ':' :: s2 ++ sep2 :: f2))

/-- Leftmost unanchored search for the timing-line pattern. -/
def searchPair : List Char → Option (List Char × List Char)
  | [] => none
  | c :: rest =>
    match matchPairAt (c :: rest) with
    | some r => some r
    | none => searchPair rest

/-- `parseTimingLine`: normalize the line, search for the
timestamp-arrow-timestamp pattern, convert both captures. -/
def parseTimingLine (rawLine : List Char) : Option (Nat × Nat) :=
  if rawLine.isEmpty then none else
  match searchPair (normalizeTimeString rawLine) with
  | none => none
  | some (startRaw, endRaw) => some (timeToMs startRaw, timeToMs endRaw)

/-! ## `parseSrt` -/

/-- A parsed cue, `{ index, startMs, endMs, text }`.  Times are `Int`
so that `findCueIndex` can be stated for arbitrary integer cue data;
`parseSrt` only ever produces the (nonnegative) values of `timeToMs`. -/
structure Cue where
  index : Nat
  startMs : Int
  endMs : Int
  text : List Char
deriving DecidableEq

def defaultCue : Cue := ⟨0, 0, 0, []⟩

/-- `String.prototype.trimEnd` (strip trailing `\s`). -/
def trimEndJs (l : List Char) : List Char :=
  (l.reverse.dropWhile isJsWs).reverse

/-- `String.prototype.trim` (strip `\s` at both ends). -/
def trimJs (l : List Char) : List Char :=
  ((l.dropWhile isJsWs).reverse.dropWhile isJsWs).reverse

/-- `.replace(/^﻿/, "")`: drop a single leading BOM. -/
def dropBom : List Char → List Char
  | '﻿' :: rest => rest
  | l => l

/-- `.replace(/\r\n/g, "\n")`. -/
def crlfToLf : List Char → List Char
  | [] => []
  | '\r' :: '\n' :: rest => '\n' :: crlfToLf rest
  | c :: rest => c :: crlfToLf rest

/-- The line-ending normalization of `parseSrt` (after the BOM strip):
CRLF to LF, then every remaining CR to LF. -/
def normalizeDoc (l : List Char) : List Char :=
  (crlfToLf l).map (fun c => if c = '\r' then '\n' else c)

/-- `.split("\n")`, keeping empty pieces. -/
def splitOnNl : List Char → List (List Char)
  | [] => [[]]
  | '\n' :: rest => [] :: splitOnNl rest
  | c :: rest =>
    match splitOnNl rest with
    | [] => [[c]]
    | l :: ls => (c :: l) :: ls

/-- `.split(/\n{2,}/)`: a separator is a maximal run of two or more
line feeds (the greedy `{2,}` consumes the whole run).  `acc` is the
current piece (reversed) and `pending` counts line feeds seen but not
yet classified: a run of length one belongs to the piece, a run of
length two or more ends it. -/
def splitBlocksGo (acc : List Char) (pending : Nat) : List Char → List (List Char)
  | [] =>
    if 2 ≤ pending then [acc.reverse, []]
    else [(List.replicate pending '\n' ++ acc).reverse]
  | c :: rest =>
    if c = '\n' then splitBlocksGo acc (pending + 1) rest
    else if 2 ≤ pending then acc.reverse :: splitBlocksGo [c] 0 rest
    else splitBlocksGo (c :: (List.replicate pending '\n' ++ acc)) 0 rest

def splitBlocks (l : List Char) : List (List Char) :=
  splitBlocksGo [] 0 l

/-- The block list of `parseSrt`: BOM strip, line-ending
normalization, split on blank lines, trim each block, drop empties. -/
def blocksOf (srtText : List Char) : List (List Char) :=
  ((splitBlocks (normalizeDoc (dropBom srtText))).map trimJs).filter
    (fun b => !b.isEmpty)

/-- Substring containment, `String.prototype.includes`. -/
def containsSub (pat : List Char) : List Char → Bool
  | [] => pat.isEmpty
  | c :: rest => pat.isPrefixOf (c :: rest) || containsSub pat rest

/-- A line on which the arrow-variant test regex (`-->`, `—>` or
`–>` anywhere in the line) holds. -/
def hasArrowVariant (l : List Char) : Bool :=
  containsSub ['-', '-', '>'] l || containsSub ['—', '>'] l ||
    containsSub ['–', '>'] l

/-- The two `findIndex` passes of `parseSrt`: first a line containing
`-->`, then (only if none exists) a line containing any arrow variant. -/
def findTimeLineIdx (lines : List (List Char)) : Option Nat :=
  match lines.findIdx? (fun l => containsSub ['-', '-', '>'] l) with
  | some i => some i
  | none => lines.findIdx? hasArrowVariant

/-- The per-block body of the `for` loop of `parseSrt`: split into
lines, right-trim each, locate and parse the timing line, and join the
non-empty lines after it (finally trimmed at both ends) as the text.
Returns `none` exactly when the block is skipped by a `continue`. -/
def cueOfBlock (block : List Char) : Option (Nat × Nat × List Char) :=
  let lines := (splitOnNl block).map trimEndJs
  match findTimeLineIdx lines with
  | none => none
  | some idx =>
    match parseTimingLine (lines.getD idx []) with
    | none => none
    | some (startMs, endMs) =>
      let bodyLines := (lines.drop (idx + 1)).filter (fun l => l.length > 0)
      some (startMs, endMs, trimJs (List.intercalate ['\n'] bodyLines))

/-- The scan over the blocks, carrying the provisional `cueIndex`
counter. -/
def extractGo (i : Nat) : List (List Char) → List Cue
  | [] => []
  | b :: bs =>
    match cueOfBlock b with
    | none => extractGo i bs
    | some (s, e, t) => ⟨i, (s : Int), (e : Int), t⟩ :: extractGo (i + 1) bs

def extractCues (blocks : List (List Char)) : List Cue :=
  extractGo 0 blocks

/-- Insertion step of a stable sort by `startMs`: the new cue goes
after every cue that compares less-or-equal. -/
def insertCue (c : Cue) : List Cue → List Cue
  | [] => [c]
  | d :: ds => if d.startMs ≤ c.startMs then d :: insertCue c ds else c :: d :: ds

/-- `cues.sort((a, b) => a.startMs - b.startMs)`.  ECMAScript
`Array.prototype.sort` is stable, and a stable ascending sort is the
unique sorted permutation in which elements with equal keys keep their
relative order; insertion sort from the left realizes it. -/
def sortCues (cs : List Cue) : List Cue :=
  cs.foldl (fun acc c => insertCue c acc) []

/-- `cues.map((c, i) => ({ ...c, index: i }))`. -/
def reindexGo (i : Nat) : List Cue → List Cue
  | [] => []
  | c :: cs => { c with index := i } :: reindexGo (i + 1) cs

def reindex (cs : List Cue) : List Cue :=
  reindexGo 0 cs

/-- `parseSrt`: empty (falsy) input gives `[]`; otherwise scan the
blocks, sort the cues by `startMs` and reassign the indices. -/
def parseSrt (srtText : List Char) : List Cue :=
  if srtText.isEmpty then []
  else reindex (sortCues (extractCues (blocksOf srtText)))

/-! ## `findCueIndex` -/

/-- The `while (lo <= hi)` loop of `findCueIndex`.  `lo`, `hi` and
`best` are `Int` because `hi` becomes `-1` when the search moves below
index 0; `(lo + hi) >> 1` is floor division by two, which for the
nonnegative sums arising here is `Int` division. -/
def findCueLoop (cues : List Cue) (positionMs : Int) (lo hi best : Int) : Int :=
  if lo ≤ hi then
    let mid := (lo + hi) / 2
    let c := cues.getD mid.toNat defaultCue
    if positionMs < c.startMs then
      findCueLoop cues positionMs lo (mid - 1) best
    else if positionMs > c.endMs then
      findCueLoop cues positionMs (mid + 1) hi mid
    else mid
  else
    max 0 (min best ((cues.length : Int) - 1))
termination_by (hi + 1 - lo).toNat
decreasing_by
  · omega
  · omega

/-- `findCueIndex`: 0 for an empty sequence, otherwise the binary
search over `[0, length - 1]` with fallback `best = 0`. -/
def findCueIndex (cues : List Cue) (positionMs : Int) : Int :=
  if cues.length = 0 then 0
  else findCueLoop cues positionMs 0 ((cues.length : Int) - 1) 0

/-- The input alphabet of the normalizer claim: ASCII digits, colon,
comma, period and ASCII whitespace. -/
def asciiTimey (c : Char) : Bool :=
  isDigitChar c || c = ':' || c = ',' || c = '.' ||
  c = ' ' || c = '\t' || c = '\n' || c = '\r' || c = '\u000B' || c = '\u000C'

/-- A one-block document whose timing line is the final line. -/
def c6doc : List Char :=
  ['1', '\n', '0', '0', ':', '0', '0', ':', '0', '0', ',', '0', '0', '0',
   ' ', '-', '-', '>', ' ',
   '0', '0', ':', '0', '0', ':', '0', '1', ',', '0', '0', '0']

/-- A one-block document whose single caption line is indented. -/
def c7doc : List Char :=
  ['1', '\n', '0', '0', ':', '0', '0', ':', '0', '0', ',', '0', '0', '0',
   ' ', '-', '-', '>', ' ',
   '0', '0', ':', '0', '0', ':', '0', '1', ',', '0', '0', '0',
   '\n', ' ', ' ', 'a']

/-- The joined body of a block before the final `.trim()`: the
right-trimmed non-empty lines after the timing line, joined with a
line feed. -/
def cueBodyJoined (block : List Char) : List Char :=
  let lines := (splitOnNl block).map trimEndJs
  match findTimeLineIdx lines with
  | none => []
  | some idx =>
    List.intercalate ['\n']
      ((lines.drop (idx + 1)).filter (fun l => l.length > 0))

/-! ## Properties of `findCueIndex` -/

/-- The cue intervals are well formed: `startMs ≤ endMs`. -/
def WellFormedCues (cues : List Cue) : Prop :=
  ∀ i : Fin cues.length, (cues.get i).startMs ≤ (cues.get i).endMs

/-- Sorted ascending by `startMs` with pairwise disjoint closed
intervals: an earlier cue ends strictly before a later one starts. -/
def SeparatedCues (cues : List Cue) : Prop :=
  ∀ i j : Fin cues.length, (i : Nat) < (j : Nat) →
    (cues.get i).endMs < (cues.get j).startMs

theorem getD_eq_get (l : List Cue) (n : Nat) (h : n < l.length) (d : Cue) :
    l.getD n d = l.get ⟨n, h⟩ := by
  simp [List.getD_eq_getElem?_getD, List.getElem?_eq_getElem h,
    List.get_eq_getElem]

theorem findCueLoop_step (cues : List Cue) (p lo hi best : Int) (h : lo ≤ hi) :
    findCueLoop cues p lo hi best =
      (if p < (cues.getD ((lo + hi) / 2).toNat defaultCue).startMs then
        findCueLoop cues p lo ((lo + hi) / 2 - 1) best
      else if p > (cues.getD ((lo + hi) / 2).toNat defaultCue).endMs then
        findCueLoop cues p ((lo + hi) / 2 + 1) hi ((lo + hi) / 2)
      else (lo + hi) / 2) := by
  rw [findCueLoop]
  simp only [if_pos h]

theorem findCueLoop_exit (cues : List Cue) (p lo hi best : Int) (h : ¬ lo ≤ hi) :
    findCueLoop cues p lo hi best =
      max 0 (min best ((cues.length : Int) - 1)) := by
  rw [findCueLoop]
  simp only [if_neg h]

theorem findCueLoop_contains (cues : List Cue) (p : Int)
    (hwf : WellFormedCues cues) (hsep : SeparatedCues cues)
    (j : Fin cues.length)
    (hjs : (cues.get j).startMs ≤ p) (hje : p ≤ (cues.get j).endMs) :
    ∀ (n : Nat) (lo hi best : Int), (hi + 1 - lo).toNat ≤ n →
      0 ≤ lo → hi ≤ (cues.length : Int) - 1 →
      lo ≤ ((j : Nat) : Int) → ((j : Nat) : Int) ≤ hi →
      findCueLoop cues p lo hi best = ((j : Nat) : Int) := by
  intro n
  induction n with
  | zero =>
    intro lo hi best hn h0 hlen hlo hhi
    omega
  | succ n ih =>
    intro lo hi best hn h0 hlen hlo hhi
    have hlh : lo ≤ hi := le_trans hlo hhi
    have hmlo : lo ≤ (lo + hi) / 2 := by omega
    have hmhi : (lo + hi) / 2 ≤ hi := by omega
    have hmn : ((lo + hi) / 2).toNat < cues.length := by omega
    rw [findCueLoop_step cues p lo hi best hlh, getD_eq_get cues _ hmn]
    by_cases h1 : p < (cues.get ⟨((lo + hi) / 2).toNat, hmn⟩).startMs
    · rw [if_pos h1]
      have hjm : (j : Nat) < ((lo + hi) / 2).toNat := by
        rcases Nat.lt_trichotomy (j : Nat) ((lo + hi) / 2).toNat with h | h | h
        · exact h
        · exfalso
          have : cues.get ⟨((lo + hi) / 2).toNat, hmn⟩ = cues.get j := by
            congr 1
            exact (Fin.ext h.symm)
          rw [this] at h1
          omega
        · exfalso
          have hs := hsep ⟨((lo + hi) / 2).toNat, hmn⟩ j h
          have hw := hwf ⟨((lo + hi) / 2).toNat, hmn⟩
          omega
      exact ih lo ((lo + hi) / 2 - 1) best (by omega) h0 (by omega) hlo (by omega)
    · rw [if_neg h1]
      by_cases h2 : p > (cues.get ⟨((lo + hi) / 2).toNat, hmn⟩).endMs
      · rw [if_pos h2]
        have hjm : ((lo + hi) / 2).toNat < (j : Nat) := by
          rcases Nat.lt_trichotomy (j : Nat) ((lo + hi) / 2).toNat with h | h | h
          · exfalso
            have hs := hsep j ⟨((lo + hi) / 2).toNat, hmn⟩ h
            omega
          · exfalso
            have : cues.get ⟨((lo + hi) / 2).toNat, hmn⟩ = cues.get j := by
              congr 1
              exact (Fin.ext h.symm)
            rw [this] at h2
            omega
          · exact h
        exact ih ((lo + hi) / 2 + 1) hi ((lo + hi) / 2) (by omega) (by omega)
          hlen (by omega) hhi
      · rw [if_neg h2]
        have hjm : (j : Nat) = ((lo + hi) / 2).toNat := by
          rcases Nat.lt_trichotomy (j : Nat) ((lo + hi) / 2).toNat with h | h | h
          · exfalso
            have hs := hsep j ⟨((lo + hi) / 2).toNat, hmn⟩ h
            omega
          · exact h
          · exfalso
            have hs := hsep ⟨((lo + hi) / 2).toNat, hmn⟩ j h
            omega
        omega

/-- C1: on a cue sequence that is sorted ascending by `startMs`, has
well-formed intervals and pairwise disjoint `[startMs, endMs]`
intervals, a query position lying inside some cue's closed interval
makes `findCueIndex` return exactly that cue's position; in
particular, for adjacent cues with `A.endMs = B.startMs - 1`, querying
`A.endMs` returns `A`'s index. -/
theorem findCueIndex_contains (cues : List Cue) (p : Int)
    (hwf : WellFormedCues cues) (hsep : SeparatedCues cues)
    (j : Fin cues.length)
    (hjs : (cues.get j).startMs ≤ p) (hje : p ≤ (cues.get j).endMs) :
    findCueIndex cues p = ((j : Nat) : Int) := by
  have hne : cues.length ≠ 0 := by
    have := j.isLt
    omega
  unfold findCueIndex
  rw [if_neg hne]
  exact findCueLoop_contains cues p hwf hsep j hjs hje cues.length 0
    ((cues.length : Int) - 1) 0 (by omega) (by omega) (by omega)
    (by omega) (by have := j.isLt; omega)

/-- Witness for C1: three-millisecond-adjacent cues
`[0, 999]` and `[1000, 1999]`; the boundary query at `999` resolves to
cue 0, not cue 1. -/
theorem findCueIndex_contains_witness :
    findCueIndex [⟨0, 0, 999, []⟩, ⟨1, 1000, 1999, []⟩] 999 = 0 := by
  simpa using findCueIndex_contains
    [⟨0, 0, 999, []⟩, ⟨1, 1000, 1999, []⟩] 999
    (by unfold WellFormedCues; decide) (by unfold SeparatedCues; decide)
    ⟨0, by decide⟩ (by decide) (by decide)

theorem findCueLoop_gap (cues : List Cue) (p : Int)
    (hwf : WellFormedCues cues) (k : Nat) (hk : k < cues.length)
    (hf1 : ∀ i : Fin cues.length, (i : Nat) ≤ k → (cues.get i).endMs < p)
    (hf2 : ∀ i : Fin cues.length, k < (i : Nat) → p < (cues.get i).startMs) :
    ∀ (n : Nat) (lo hi best : Int), (hi + 1 - lo).toNat ≤ n →
      0 ≤ lo → hi ≤ (cues.length : Int) - 1 →
      lo ≤ (k : Int) + 1 → (k : Int) ≤ hi →
      (best = lo - 1 ∨ (best = 0 ∧ lo = 0)) →
      findCueLoop cues p lo hi best = (k : Int) := by
  intro n
  induction n with
  | zero =>
    intro lo hi best hn h0 hlen hlo hhi hbest
    rw [findCueLoop_exit cues p lo hi best (by omega)]
    omega
  | succ n ih =>
    intro lo hi best hn h0 hlen hlo hhi hbest
    by_cases hlh : lo ≤ hi
    case neg =>
      rw [findCueLoop_exit cues p lo hi best hlh]
      omega
    have hmlo : lo ≤ (lo + hi) / 2 := by omega
    have hmhi : (lo + hi) / 2 ≤ hi := by omega
    have hmn : ((lo + hi) / 2).toNat < cues.length := by omega
    rw [findCueLoop_step cues p lo hi best hlh, getD_eq_get cues _ hmn]
    by_cases hm : ((lo + hi) / 2).toNat ≤ k
    · have he := hf1 ⟨((lo + hi) / 2).toNat, hmn⟩ hm
      have hw := hwf ⟨((lo + hi) / 2).toNat, hmn⟩
      rw [if_neg (by omega), if_pos (by omega)]
      exact ih ((lo + hi) / 2 + 1) hi ((lo + hi) / 2) (by omega) (by omega)
        hlen (by omega) (by omega) (by omega)
    · have hkm : (k : Nat) < ((lo + hi) / 2).toNat := by omega
      have hs := hf2 ⟨((lo + hi) / 2).toNat, hmn⟩ hkm
      rw [if_pos (by omega)]
      exact ih lo ((lo + hi) / 2 - 1) best (by omega) h0 (by omega) hlo
        (by omega) hbest

theorem findCueLoop_allAbove (cues : List Cue) (p : Int)
    (hall : ∀ i : Fin cues.length, p < (cues.get i).startMs) :
    ∀ (n : Nat) (lo hi best : Int), (hi + 1 - lo).toNat ≤ n →
      0 ≤ lo → hi ≤ (cues.length : Int) - 1 →
      findCueLoop cues p lo hi best =
        max 0 (min best ((cues.length : Int) - 1)) := by
  intro n
  induction n with
  | zero =>
    intro lo hi best hn h0 hlen
    rw [findCueLoop_exit cues p lo hi best (by omega)]
  | succ n ih =>
    intro lo hi best hn h0 hlen
    by_cases hlh : lo ≤ hi
    · have hmlo : lo ≤ (lo + hi) / 2 := by omega
      have hmhi : (lo + hi) / 2 ≤ hi := by omega
      have hmn : ((lo + hi) / 2).toNat < cues.length := by omega
      rw [findCueLoop_step cues p lo hi best hlh, getD_eq_get cues _ hmn]
      have hs := hall ⟨((lo + hi) / 2).toNat, hmn⟩
      rw [if_pos (by omega)]
      exact ih lo ((lo + hi) / 2 - 1) best (by omega) h0 (by omega)
    · rw [findCueLoop_exit cues p lo hi best hlh]

/-- C2: on a non-empty, well-formed, sorted, non-overlapping cue
sequence, when no cue's interval contains the position,
`findCueIndex` returns the greatest index whose cue ends strictly
before the position (so a position past the last cue yields the last
index), and a position before the first cue's `startMs` yields 0. -/
theorem findCueIndex_fallback (cues : List Cue) (p : Int)
    (hwf : WellFormedCues cues) (hsep : SeparatedCues cues)
    (hne : cues ≠ [])
    (hnc : ∀ i : Fin cues.length,
      ¬ ((cues.get i).startMs ≤ p ∧ p ≤ (cues.get i).endMs)) :
    (∀ k : Fin cues.length, (cues.get k).endMs < p →
        (∀ h : (k : Nat) + 1 < cues.length,
          p < (cues.get ⟨(k : Nat) + 1, h⟩).startMs) →
        findCueIndex cues p = ((k : Nat) : Int))
    ∧ (p < (cues.headD defaultCue).startMs → findCueIndex cues p = 0) := by
  have hlen : cues.length ≠ 0 := by
    intro h
    exact hne (List.length_eq_zero.mp h)
  constructor
  · intro k hk hnext
    have hf1 : ∀ i : Fin cues.length, (i : Nat) ≤ (k : Nat) →
        (cues.get i).endMs < p := by
      intro i hi
      rcases Nat.lt_or_ge (i : Nat) (k : Nat) with h | h
      · have hs := hsep i k h
        have hw := hwf k
        omega
      · have : i = k := Fin.ext (by omega)
        rw [this]
        exact hk
    have hf2 : ∀ i : Fin cues.length, (k : Nat) < (i : Nat) →
        p < (cues.get i).startMs := by
      intro i hi
      rcases Nat.lt_or_ge ((k : Nat) + 1) (i : Nat) with h | h
      · have hk1 : (k : Nat) + 1 < cues.length := by
          have := i.isLt
          omega
        have h1 := hnext hk1
        have hw := hwf ⟨(k : Nat) + 1, hk1⟩
        have hs := hsep ⟨(k : Nat) + 1, hk1⟩ i h
        omega
      · have hik : (i : Nat) = (k : Nat) + 1 := by omega
        have hk1 : (k : Nat) + 1 < cues.length := hik ▸ i.isLt
        have : i = ⟨(k : Nat) + 1, hk1⟩ := Fin.ext hik
        rw [this]
        exact hnext hk1
    unfold findCueIndex
    rw [if_neg hlen]
    exact findCueLoop_gap cues p hwf (k : Nat) k.isLt hf1 hf2 cues.length 0
      ((cues.length : Int) - 1) 0 (by omega) (by omega) (by omega) (by omega)
      (by have := k.isLt; omega) (by omega)
  · intro hhead
    have h0 : 0 < cues.length := by omega
    have hheadget : cues.headD defaultCue = cues.get ⟨0, h0⟩ := by
      cases cues with
      | nil => simp at h0
      | cons c cs => rfl
    have hall : ∀ i : Fin cues.length, p < (cues.get i).startMs := by
      intro i
      rcases Nat.eq_zero_or_pos (i : Nat) with h | h
      · have : i = ⟨0, h0⟩ := Fin.ext h
        rw [this]
        rw [hheadget] at hhead
        exact hhead
      · have hw := hwf ⟨0, h0⟩
        have hs := hsep ⟨0, h0⟩ i h
        rw [hheadget] at hhead
        omega
    unfold findCueIndex
    rw [if_neg hlen]
    rw [findCueLoop_allAbove cues p hall cues.length 0
      ((cues.length : Int) - 1) 0 (by omega) (by omega) (by omega)]
    omega

/-- Witness for C2: cues `[0,999],[1000,1999],[2000,2999]` with the
gap-free query 50000 past the end returning the last index 2. -/
theorem findCueIndex_fallback_witness :
    findCueIndex
      [⟨0, 0, 999, []⟩, ⟨1, 1000, 1999, []⟩, ⟨2, 2000, 2999, []⟩]
      50000 = 2 := by
  simpa using (findCueIndex_fallback
    [⟨0, 0, 999, []⟩, ⟨1, 1000, 1999, []⟩, ⟨2, 2000, 2999, []⟩] 50000
    (by unfold WellFormedCues; decide) (by unfold SeparatedCues; decide)
    (by decide) (by decide)).1 ⟨2, by decide⟩ (by decide)
    (fun h => absurd h (by decide))

/-- C9: `findCueIndex` on the empty cue sequence returns 0 for every
integer position. -/
theorem findCueIndex_empty (p : Int) : findCueIndex [] p = 0 := rfl

theorem findCueLoop_bounds (cues : List Cue) (p : Int) :
    ∀ (n : Nat) (lo hi best : Int), (hi + 1 - lo).toNat ≤ n →
      0 ≤ lo → hi ≤ (cues.length : Int) - 1 →
      0 ≤ best → best ≤ (cues.length : Int) - 1 → 1 ≤ cues.length →
      0 ≤ findCueLoop cues p lo hi best ∧
        findCueLoop cues p lo hi best ≤ (cues.length : Int) - 1 := by
  intro n
  induction n with
  | zero =>
    intro lo hi best hn h0 hlen hb0 hb1 hne
    rw [findCueLoop_exit cues p lo hi best (by omega)]
    omega
  | succ n ih =>
    intro lo hi best hn h0 hlen hb0 hb1 hne
    by_cases hlh : lo ≤ hi
    case neg =>
      rw [findCueLoop_exit cues p lo hi best hlh]
      omega
    have hmlo : lo ≤ (lo + hi) / 2 := by omega
    have hmhi : (lo + hi) / 2 ≤ hi := by omega
    have hmn : ((lo + hi) / 2).toNat < cues.length := by omega
    rw [findCueLoop_step cues p lo hi best hlh, getD_eq_get cues _ hmn]
    by_cases h1 : p < (cues.get ⟨((lo + hi) / 2).toNat, hmn⟩).startMs
    · rw [if_pos h1]
      exact ih lo ((lo + hi) / 2 - 1) best (by omega) h0 (by omega) hb0 hb1 hne
    · rw [if_neg h1]
      by_cases h2 : p > (cues.get ⟨((lo + hi) / 2).toNat, hmn⟩).endMs
      · rw [if_pos h2]
        exact ih ((lo + hi) / 2 + 1) hi ((lo + hi) / 2) (by omega) (by omega)
          hlen (by omega) (by omega) hne
      · rw [if_neg h2]
        omega

/-- C10: for every non-empty cue list — sorted or not — and every
integer position, `findCueIndex` returns an index in
`[0, length - 1]`, so indexing the list with the result is in
bounds. -/
theorem findCueIndex_in_bounds (cues : List Cue) (p : Int)
    (hne : cues ≠ []) :
    0 ≤ findCueIndex cues p ∧
      findCueIndex cues p ≤ (cues.length : Int) - 1 := by
  have hlen : cues.length ≠ 0 := by
    intro h
    exact hne (List.length_eq_zero.mp h)
  unfold findCueIndex
  rw [if_neg hlen]
  exact findCueLoop_bounds cues p cues.length 0 ((cues.length : Int) - 1) 0
    (by omega) (by omega) (by omega) (by omega) (by omega) (by omega)

/-- Witness for C10: a single malformed cue (`startMs > endMs`) and a
position inside the inverted interval still give an in-bounds index. -/
theorem findCueIndex_in_bounds_witness :
    0 ≤ findCueIndex [⟨0, 5, 3, []⟩] 4 ∧
      findCueIndex [⟨0, 5, 3, []⟩] 4 ≤ (([⟨0, 5, 3, []⟩] : List Cue).length : Int) - 1 :=
  findCueIndex_in_bounds [⟨0, 5, 3, []⟩] 4 (by decide)

/-! ## Properties of `normalizeTimeString` -/


theorem ascii_lt (c : Char) (h : asciiTimey c = true) : c < '\u00A0' := by
  simp only [asciiTimey, isDigitChar, Bool.or_eq_true, Bool.and_eq_true,
    decide_eq_true_eq] at h
  rcases h with ((((((((⟨h1, h2⟩ | h) | h) | h) | h) | h) | h) | h) | h) | h
  · exact lt_of_le_of_lt h2 (by decide)
  all_goals subst h
  all_goals decide

theorem ne_of_lt_a0 (c : Char) (hc : c < '\u00A0') :
    ∀ x : Char, '\u00A0' ≤ x → ¬ (c = x) := by
  intro x hx he
  subst he
  exact absurd (lt_of_lt_of_le hc hx) (lt_irrefl _)

theorem isBidiMark_ascii (c : Char) (hc : c < '\u00A0') :
    isBidiMark c = false := by
  rw [Bool.eq_false_iff]
  intro hb
  simp only [isBidiMark, Bool.or_eq_true, Bool.and_eq_true,
    decide_eq_true_eq] at hb
  rcases hb with ((h | h) | ⟨h, _⟩) | ⟨h, _⟩
  · exact ne_of_lt_a0 c hc _ (by decide) h
  · exact ne_of_lt_a0 c hc _ (by decide) h
  · exact absurd (lt_of_le_of_lt h hc) (by decide)
  · exact absurd (lt_of_le_of_lt h hc) (by decide)

theorem isZeroWidth_ascii (c : Char) (hc : c < '\u00A0') :
    isZeroWidth c = false := by
  rw [Bool.eq_false_iff]
  intro hb
  simp only [isZeroWidth, Bool.or_eq_true, decide_eq_true_eq] at hb
  rcases hb with (((h | h) | h) | h) | h
  all_goals exact ne_of_lt_a0 c hc _ (by decide) h

theorem isWeirdSpace_ascii (c : Char) (hc : c < '\u00A0') :
    isWeirdSpace c = false := by
  rw [Bool.eq_false_iff]
  intro hb
  simp only [isWeirdSpace, Bool.or_eq_true, Bool.and_eq_true,
    decide_eq_true_eq] at hb
  rcases hb with (((((h | h) | h) | ⟨h, _⟩) | h) | h) | h
  · exact ne_of_lt_a0 c hc _ (by decide) h
  · exact ne_of_lt_a0 c hc _ (by decide) h
  · exact ne_of_lt_a0 c hc _ (by decide) h
  · exact absurd (lt_of_le_of_lt h hc) (by decide)
  · exact ne_of_lt_a0 c hc _ (by decide) h
  · exact ne_of_lt_a0 c hc _ (by decide) h
  · exact ne_of_lt_a0 c hc _ (by decide) h

theorem arabicPunct_ascii (c : Char) (hc : c < '\u00A0') :
    arabicPunct c = some c := by
  unfold arabicPunct
  rw [if_neg (ne_of_lt_a0 c hc _ (by decide)),
    if_neg (ne_of_lt_a0 c hc _ (by decide)),
    if_neg (ne_of_lt_a0 c hc _ (by decide)),
    if_neg (ne_of_lt_a0 c hc _ (by decide)),
    if_neg (ne_of_lt_a0 c hc _ (by decide)),
    if_neg (ne_of_lt_a0 c hc _ (by decide)),
    if_neg (ne_of_lt_a0 c hc _ (by decide)),
    if_neg (ne_of_lt_a0 c hc _ (by decide)),
    if_neg (ne_of_lt_a0 c hc _ (by decide)),
    if_neg (ne_of_lt_a0 c hc _ (by decide))]

theorem arabicDigit_ascii (c : Char) (hc : c < '\u00A0') :
    arabicDigit c = c := by
  unfold arabicDigit
  rw [if_neg, if_neg]
  · intro hb
    simp only [Bool.and_eq_true, decide_eq_true_eq] at hb
    exact absurd (lt_of_le_of_lt hb.1 hc) (by decide)
  · intro hb
    simp only [Bool.and_eq_true, decide_eq_true_eq] at hb
    exact absurd (lt_of_le_of_lt hb.1 hc) (by decide)

theorem map_eq_self_of {α : Type} (l : List α) (f : α → α)
    (h : ∀ c ∈ l, f c = c) : l.map f = l := by
  induction l with
  | nil => rfl
  | cons a t ih =>
    simp only [List.map_cons, h a (List.mem_cons_self a t),
      ih (fun c hc => h c (List.mem_cons_of_mem a hc))]

theorem filterMap_eq_self_of {α : Type} (l : List α) (f : α → Option α)
    (h : ∀ c ∈ l, f c = some c) : l.filterMap f = l := by
  induction l with
  | nil => rfl
  | cons a t ih =>
    rw [List.filterMap_cons, h a (List.mem_cons_self a t),
      ih (fun c hc => h c (List.mem_cons_of_mem a hc))]

/-- On input made only of ASCII digits, `:`, `,`, `.` and whitespace,
the normalizer reduces to whitespace removal: no bidi, zero-width,
exotic-space or Arabic rewriting applies. -/
theorem normalize_ascii (l : List Char) (h : ∀ c ∈ l, asciiTimey c = true) :
    normalizeTimeString l = l.filter (fun c => !isJsWs c) := by
  have hlt : ∀ c ∈ l, c < '\u00A0' := fun c hc => ascii_lt c (h c hc)
  have e1 : l.filter (fun c => !isBidiMark c) = l :=
    (@List.filter_eq_self Char (fun c => !isBidiMark c) l).mpr
      (fun c hc => by simp [isBidiMark_ascii c (hlt c hc)])
  have e2 : l.filter (fun c => !isZeroWidth c) = l :=
    (@List.filter_eq_self Char (fun c => !isZeroWidth c) l).mpr
      (fun c hc => by simp [isZeroWidth_ascii c (hlt c hc)])
  have e3 : l.map (fun c => if isWeirdSpace c then ' ' else c) = l :=
    map_eq_self_of l _
      (fun c hc => by simp [isWeirdSpace_ascii c (hlt c hc)])
  have e4 : l.filterMap arabicPunct = l :=
    filterMap_eq_self_of l _ (fun c hc => arabicPunct_ascii c (hlt c hc))
  have e5 : l.map arabicDigit = l :=
    map_eq_self_of l _ (fun c hc => arabicDigit_ascii c (hlt c hc))
  unfold normalizeTimeString
  simp only [e1, e2, e3, e4, e5]

/-- C8: on every input built solely from ASCII digits, colon, comma,
period and whitespace, `normalizeTimeString` is idempotent and its
output contains no whitespace character. -/
theorem normalizeTimeString_idem (l : List Char)
    (h : ∀ c ∈ l, asciiTimey c = true) :
    normalizeTimeString (normalizeTimeString l) = normalizeTimeString l ∧
      ∀ c ∈ normalizeTimeString l, isJsWs c = false := by
  have h1 : normalizeTimeString l = l.filter (fun c => !isJsWs c) :=
    normalize_ascii l h
  have hmem : ∀ c ∈ normalizeTimeString l, asciiTimey c = true ∧ isJsWs c = false := by
    rw [h1]
    intro c hc
    obtain ⟨hcl, hflt⟩ := List.mem_filter.mp hc
    exact ⟨h c hcl, by simpa using hflt⟩
  refine ⟨?_, fun c hc => (hmem c hc).2⟩
  have h2 : normalizeTimeString (normalizeTimeString l) =
      (normalizeTimeString l).filter (fun c => !isJsWs c) :=
    normalize_ascii _ (fun c hc => (hmem c hc).1)
  have h3 : (normalizeTimeString l).filter (fun c => !isJsWs c) =
      normalizeTimeString l :=
    (@List.filter_eq_self Char (fun c => !isJsWs c)
      (normalizeTimeString l)).mpr (fun c hc => by simp [(hmem c hc).2])
  rw [h2, h3]

/-- Witness for C8: a digit string with interior whitespace. -/
theorem normalizeTimeString_idem_witness :
    normalizeTimeString
        (normalizeTimeString ['0', ' ', '0', ':', '\t', '1']) =
      normalizeTimeString ['0', ' ', '0', ':', '\t', '1'] ∧
    ∀ c ∈ normalizeTimeString ['0', ' ', '0', ':', '\t', '1'],
      isJsWs c = false :=
  normalizeTimeString_idem ['0', ' ', '0', ':', '\t', '1'] (by decide)

/-! ## Properties of `timeToMs` -/

theorem takeWhile_append_all {p : Char → Bool} (l1 l2 : List Char)
    (h : ∀ c ∈ l1, p c = true) :
    (l1 ++ l2).takeWhile p = l1 ++ l2.takeWhile p := by
  induction l1 with
  | nil => rfl
  | cons a t ih =>
    rw [List.cons_append, List.takeWhile_cons_of_pos
      (h a (List.mem_cons_self a t)), List.cons_append,
      ih (fun c hc => h c (List.mem_cons_of_mem a hc))]

theorem dropWhile_append_all {p : Char → Bool} (l1 l2 : List Char)
    (h : ∀ c ∈ l1, p c = true) :
    (l1 ++ l2).dropWhile p = l2.dropWhile p := by
  induction l1 with
  | nil => rfl
  | cons a t ih =>
    rw [List.cons_append, List.dropWhile_cons_of_pos
      (h a (List.mem_cons_self a t)),
      ih (fun c hc => h c (List.mem_cons_of_mem a hc))]

/-- C3: whenever the normalized form of the input begins with
one-or-more digits, `:`, exactly two digits, `:`, exactly two digits,
a `.` or `,`, and a maximal group of one to three fraction digits,
`timeToMs` returns
`((hours*60 + minutes)*60 + seconds)*1000` plus the fraction
right-padded with zeros to three digits. -/
theorem timeToMs_spec (raw hDigits mm ss frac rest : List Char) (sep : Char)
    (hnorm : normalizeTimeString raw =
      hDigits ++ ':' :: (mm ++ ':' :: (ss ++ sep :: (frac ++ rest))))
    (hh0 : hDigits ≠ [])
    (hhd : ∀ c ∈ hDigits, isDigitChar c = true)
    (hmm : mm.length = 2) (hmd : ∀ c ∈ mm, isDigitChar c = true)
    (hss : ss.length = 2) (hsd : ∀ c ∈ ss, isDigitChar c = true)
    (hsep : sep = '.' ∨ sep = ',')
    (hf0 : frac ≠ []) (hf3 : frac.length ≤ 3)
    (hfd : ∀ c ∈ frac, isDigitChar c = true)
    (hgreedy : frac.length = 3 ∨ ∀ c ∈ rest.take 1, isDigitChar c = false) :
    timeToMs raw =
      ((digitsToNat hDigits * 60 + digitsToNat mm) * 60 + digitsToNat ss)
          * 1000 + digitsToNat (padFrac frac) := by
  obtain ⟨a, b, rfl⟩ := List.length_eq_two.mp hmm
  obtain ⟨d, e, rfl⟩ := List.length_eq_two.mp hss
  have hsepd : isDigitChar sep = false := by
    rcases hsep with rfl | rfl
    all_goals decide
  have htake : (hDigits ++ ':' :: ([a, b] ++ ':' :: ([d, e] ++ sep :: (frac ++ rest)))).takeWhile isDigitChar = hDigits := by
    rw [takeWhile_append_all _ _ hhd, List.takeWhile_cons_of_neg (by decide)]
    simp
  have hdrop : (hDigits ++ ':' :: ([a, b] ++ ':' :: ([d, e] ++ sep :: (frac ++ rest)))).dropWhile isDigitChar = ':' :: ([a, b] ++ ':' :: ([d, e] ++ sep :: (frac ++ rest))) := by
    rw [dropWhile_append_all _ _ hhd, List.dropWhile_cons_of_neg (by decide)]
  have hfixed : matchFixed (hDigits ++ ':' :: ([a, b] ++ ':' :: ([d, e] ++ sep :: (frac ++ rest)))) =
      some (hDigits, [a, b], [d, e], sep, frac ++ rest) := by
    unfold matchFixed
    rw [htake, hdrop]
    rw [if_neg (by simpa using hh0)]
    simp only [List.cons_append, List.nil_append]
    rw [if_pos]
    simp only [Bool.and_eq_true, decide_eq_true_eq]
    refine ⟨⟨⟨⟨?_, ?_⟩, ?_⟩, ?_⟩, ?_⟩
    · exact hmd a (by simp)
    · exact hmd b (by simp)
    · exact hsd d (by simp)
    · exact hsd e (by simp)
    · simpa using hsep
  have hfracw : (frac ++ rest).takeWhile isDigitChar =
      frac ++ rest.takeWhile isDigitChar := takeWhile_append_all _ _ hfd
  have htf : takeFrac (frac ++ rest) = frac := by
    unfold takeFrac
    rw [hfracw]
    rcases hgreedy with h3 | hnd
    · rw [List.take_append_of_le_length (by omega), List.take_of_length_le (by omega)]
    · have : rest.takeWhile isDigitChar = [] := by
        cases rest with
        | nil => rfl
        | cons r t =>
          have := hnd r (by simp)
          exact List.takeWhile_cons_of_neg (by simp [this])
      rw [this, List.append_nil, List.take_of_length_le (by omega)]
  have hfe : frac.isEmpty = false := by
    cases frac with
    | nil => exact absurd rfl hf0
    | cons x t => rfl
  unfold timeToMs matchTimePrefix
  rw [hnorm]
  simp only [hfixed, htf, hfe, Bool.false_eq_true, if_false]

/-- Witness for C3: the short fraction `"00:00:00,5"` is right-padded,
giving 500 milliseconds rather than 5. -/
theorem timeToMs_spec_witness :
    timeToMs ['0', '0', ':', '0', '0', ':', '0', '0', ',', '5'] = 500 := by
  have h := timeToMs_spec ['0', '0', ':', '0', '0', ':', '0', '0', ',', '5']
    ['0', '0'] ['0', '0'] ['0', '0'] ['5'] [] ','
    (by decide) (by decide) (by decide) (by decide) (by decide)
    (by decide) (by decide) (by decide) (by decide) (by decide)
    (by decide) (by decide)
  rw [h]
  decide

/-! ## Properties of `parseSrt`: sorting, stability, reindexing -/

theorem mem_insertCue (x c : Cue) (l : List Cue) :
    x ∈ insertCue c l ↔ x = c ∨ x ∈ l := by
  induction l with
  | nil => simp [insertCue]
  | cons d ds ih =>
    unfold insertCue
    by_cases h : d.startMs ≤ c.startMs
    · rw [if_pos h]
      simp only [List.mem_cons, ih]
      tauto
    · rw [if_neg h]
      simp only [List.mem_cons]

theorem sorted_insertCue (c : Cue) (l : List Cue)
    (h : List.Pairwise (fun a b => a.startMs ≤ b.startMs) l) :
    List.Pairwise (fun a b => a.startMs ≤ b.startMs) (insertCue c l) := by
  induction l with
  | nil => simp [insertCue]
  | cons d ds ih =>
    rcases List.pairwise_cons.mp h with ⟨hd, hds⟩
    unfold insertCue
    by_cases hle : d.startMs ≤ c.startMs
    · rw [if_pos hle]
      refine List.pairwise_cons.mpr ⟨?_, ih hds⟩
      intro x hx
      rcases (mem_insertCue x c ds).mp hx with rfl | hx
      · exact hle
      · exact hd x hx
    · rw [if_neg hle]
      refine List.pairwise_cons.mpr ⟨?_, h⟩
      intro x hx
      rcases List.mem_cons.mp hx with rfl | hx
      · omega
      · have := hd x hx
        omega

theorem sorted_sortCuesAux (es acc : List Cue)
    (h : List.Pairwise (fun a b => a.startMs ≤ b.startMs) acc) :
    List.Pairwise (fun a b => a.startMs ≤ b.startMs)
      (es.foldl (fun acc c => insertCue c acc) acc) := by
  induction es generalizing acc with
  | nil => simpa using h
  | cons c es ih => exact ih _ (sorted_insertCue c acc h)

theorem stable_insertCue (c : Cue) (l : List Cue)
    (hs : List.Pairwise (fun a b => a.startMs ≤ b.startMs) l)
    (hst : List.Pairwise
      (fun a b => a.startMs = b.startMs → a.index < b.index) l)
    (hidx : ∀ d ∈ l, d.index < c.index) :
    List.Pairwise (fun a b => a.startMs = b.startMs → a.index < b.index)
      (insertCue c l) := by
  induction l with
  | nil => simp [insertCue]
  | cons d ds ih =>
    rcases List.pairwise_cons.mp hs with ⟨hsd, hsds⟩
    rcases List.pairwise_cons.mp hst with ⟨hstd, hstds⟩
    unfold insertCue
    by_cases hle : d.startMs ≤ c.startMs
    · rw [if_pos hle]
      refine List.pairwise_cons.mpr
        ⟨?_, ih hsds hstds (fun x hx => hidx x (List.mem_cons_of_mem d hx))⟩
      intro x hx
      rcases (mem_insertCue x c ds).mp hx with rfl | hx
      · exact fun _ => hidx d (List.mem_cons_self d ds)
      · exact hstd x hx
    · rw [if_neg hle]
      refine List.pairwise_cons.mpr ⟨?_, hst⟩
      intro x hx heq
      rcases List.mem_cons.mp hx with rfl | hx
      · omega
      · have := hsd x hx
        omega

theorem stable_sortCuesAux (es acc : List Cue)
    (hs : List.Pairwise (fun a b => a.startMs ≤ b.startMs) acc)
    (hst : List.Pairwise
      (fun a b => a.startMs = b.startMs → a.index < b.index) acc)
    (hix : ∀ d ∈ acc, ∀ c ∈ es, d.index < c.index)
    (hinc : List.Pairwise (fun a b => a.index < b.index) es) :
    List.Pairwise (fun a b => a.startMs = b.startMs → a.index < b.index)
      (es.foldl (fun acc c => insertCue c acc) acc) := by
  induction es generalizing acc with
  | nil => simpa using hst
  | cons c es ih =>
    rcases List.pairwise_cons.mp hinc with ⟨hc, hes⟩
    refine ih (insertCue c acc) (sorted_insertCue c acc hs)
      (stable_insertCue c acc hs hst
        (fun d hd => hix d hd c (List.mem_cons_self c es)))
      ?_ hes
    intro d hd x hx
    rcases (mem_insertCue d c acc).mp hd with rfl | hd
    · exact hc x hx
    · exact hix d hd x (List.mem_cons_of_mem c hx)

theorem extractGo_index_ge (bs : List (List Char)) :
    ∀ (i : Nat), ∀ c ∈ extractGo i bs, i ≤ c.index := by
  induction bs with
  | nil => intro i c hc; simp [extractGo] at hc
  | cons b bs ih =>
    intro i c hc
    unfold extractGo at hc
    cases h : cueOfBlock b with
    | none =>
      rw [h] at hc
      exact ih i c hc
    | some v =>
      rw [h] at hc
      rcases List.mem_cons.mp hc with rfl | hc
      · exact le_refl _
      · have := ih (i + 1) c hc
        omega

theorem extractGo_inc (bs : List (List Char)) :
    ∀ (i : Nat),
      List.Pairwise (fun a b => a.index < b.index) (extractGo i bs) := by
  induction bs with
  | nil => intro i; simp [extractGo]
  | cons b bs ih =>
    intro i
    unfold extractGo
    cases h : cueOfBlock b with
    | none => exact ih i
    | some v =>
      refine List.pairwise_cons.mpr ⟨?_, ih (i + 1)⟩
      intro x hx
      have := extractGo_index_ge bs (i + 1) x hx
      exact Nat.lt_of_lt_of_le (Nat.lt_succ_self i) this

theorem reindexGo_map_start (l : List Cue) :
    ∀ (i : Nat), (reindexGo i l).map (fun c => c.startMs) =
      l.map (fun c => c.startMs) := by
  induction l with
  | nil => intro i; rfl
  | cons c cs ih =>
    intro i
    simp only [reindexGo, List.map_cons, ih (i + 1)]

theorem reindexGo_length (l : List Cue) :
    ∀ (i : Nat), (reindexGo i l).length = l.length := by
  induction l with
  | nil => intro i; rfl
  | cons c cs ih =>
    intro i
    simp only [reindexGo, List.length_cons, ih (i + 1)]

theorem reindexGo_get_index (l : List Cue) :
    ∀ (i : Nat) (k : Fin (reindexGo i l).length),
      ((reindexGo i l).get k).index = i + (k : Nat) := by
  induction l with
  | nil =>
    intro i k
    exact absurd k.isLt (by simp [reindexGo])
  | cons c cs ih =>
    intro i k
    match k with
    | ⟨0, h0⟩ => rfl
    | ⟨j + 1, hj⟩ =>
      have := ih (i + 1) ⟨j, by
        have := hj
        simp only [reindexGo, List.length_cons] at this
        omega⟩
      simp only [reindexGo, List.get_eq_getElem, List.getElem_cons_succ] at this ⊢
      omega

/-- C4: the output of `parseSrt` is sorted ascending by `startMs`, the
sort is stable (cues with equal `startMs` keep their block order,
i.e. their provisional extraction indices stay increasing), and the
`index` fields are reassigned to the positions `0..n-1` of the final
order. -/
theorem parseSrt_eq (s : List Char) :
    parseSrt s = reindex (sortCues (extractCues (blocksOf s))) := by
  unfold parseSrt
  by_cases hs : s.isEmpty
  · rw [if_pos hs]
    have hnil : s = [] := by
      cases s with
      | nil => rfl
      | cons a t => simp at hs
    subst hnil
    rfl
  · rw [if_neg hs]

theorem parseSrt_sorted_stable_reindexed (s : List Char) :
    List.Pairwise (fun a b => a.startMs ≤ b.startMs) (parseSrt s) ∧
    (∀ k : Fin (parseSrt s).length, ((parseSrt s).get k).index = (k : Nat)) ∧
    List.Pairwise (fun a b => a.startMs = b.startMs → a.index < b.index)
      (sortCues (extractCues (blocksOf s))) ∧
    parseSrt s = reindex (sortCues (extractCues (blocksOf s))) := by
  have hps : parseSrt s = reindex (sortCues (extractCues (blocksOf s))) :=
    parseSrt_eq s
  have hsorted : List.Pairwise (fun a b => a.startMs ≤ b.startMs)
      (sortCues (extractCues (blocksOf s))) :=
    sorted_sortCuesAux (extractCues (blocksOf s)) [] (by simp)
  refine ⟨?_, ?_, ?_, hps⟩
  · rw [hps]
    have h3 : List.Pairwise (fun x y : Int => x ≤ y)
        (List.map (fun c => c.startMs)
          (sortCues (extractCues (blocksOf s)))) :=
      List.pairwise_map.mpr hsorted
    rw [← reindexGo_map_start (sortCues (extractCues (blocksOf s))) 0] at h3
    exact List.pairwise_map.mp h3
  · rw [hps]
    intro k
    have := reindexGo_get_index (sortCues (extractCues (blocksOf s))) 0 k
    simpa using this
  · exact stable_sortCuesAux (extractCues (blocksOf s)) [] (by simp)
      (by simp) (by simp) (extractGo_inc (blocksOf s) 0)

/-! ## Properties of `parseSrt`: totality, skipped blocks, cue text -/

theorem length_insertCue (c : Cue) (l : List Cue) :
    (insertCue c l).length = l.length + 1 := by
  induction l with
  | nil => rfl
  | cons d ds ih =>
    unfold insertCue
    by_cases h : d.startMs ≤ c.startMs
    · rw [if_pos h]
      simp [ih]
    · rw [if_neg h]
      simp

theorem length_sortCuesAux (es : List Cue) :
    ∀ acc : List Cue,
      (es.foldl (fun acc c => insertCue c acc) acc).length =
        acc.length + es.length := by
  induction es with
  | nil => intro acc; simp
  | cons c es ih =>
    intro acc
    rw [List.foldl_cons, ih (insertCue c acc), length_insertCue]
    simp only [List.length_cons]
    omega

theorem extractGo_length (bs : List (List Char)) :
    ∀ i : Nat, (extractGo i bs).length =
      ((bs.filter (fun b => (cueOfBlock b).isSome)).length) := by
  induction bs with
  | nil => intro i; rfl
  | cons b bs ih =>
    intro i
    unfold extractGo
    cases h : cueOfBlock b with
    | none =>
      rw [List.filter_cons_of_neg (by simp [h])]
      exact ih i
    | some v =>
      rw [List.filter_cons_of_pos (by simp [h])]
      simp only [List.length_cons, ih (i + 1)]

/-- C5: `parseSrt` is total: empty input yields the empty cue list,
the output has exactly one cue per block accepted by the per-block
scan, and every block without a detectable timing line is skipped
(yields no cue) rather than failing. -/
theorem parseSrt_total (s : List Char) :
    parseSrt [] = [] ∧
    (parseSrt s).length =
      ((blocksOf s).filter (fun b => (cueOfBlock b).isSome)).length ∧
    (∀ b ∈ blocksOf s,
      findTimeLineIdx ((splitOnNl b).map trimEndJs) = none →
        cueOfBlock b = none) := by
  refine ⟨rfl, ?_, ?_⟩
  · rw [parseSrt_eq s]
    unfold reindex
    rw [reindexGo_length]
    unfold sortCues
    rw [length_sortCuesAux]
    simp only [List.length_nil, Nat.zero_add]
    exact extractGo_length (blocksOf s) 0
  · intro b _ hnone
    unfold cueOfBlock
    simp only [hnone]

/-- Witness for C5: a document whose single block has a sequence
number and text but no timing line produces no cue. -/
theorem parseSrt_total_witness :
    parseSrt [] = [] ∧
    (parseSrt ['1', '\n', 'h', 'i']).length =
      ((blocksOf ['1', '\n', 'h', 'i']).filter
        (fun b => (cueOfBlock b).isSome)).length ∧
    cueOfBlock ['1', '\n', 'h', 'i'] = none := by
  have h := parseSrt_total (['1', '\n', 'h', 'i'])
  exact ⟨h.1, h.2.1, h.2.2 (['1', '\n', 'h', 'i']) (by decide) (by decide)⟩

theorem mem_foldl_insert (es : List Cue) :
    ∀ (acc : List Cue) (x : Cue),
      x ∈ es.foldl (fun acc c => insertCue c acc) acc ↔
        x ∈ acc ∨ x ∈ es := by
  induction es with
  | nil => intro acc x; simp
  | cons c es ih =>
    intro acc x
    rw [List.foldl_cons, ih (insertCue c acc) x, mem_insertCue]
    simp only [List.mem_cons]
    tauto

theorem mem_reindexGo (l : List Cue) :
    ∀ (i : Nat) (x : Cue), x ∈ l → ∃ y ∈ reindexGo i l,
      y.startMs = x.startMs ∧ y.endMs = x.endMs ∧ y.text = x.text := by
  induction l with
  | nil =>
    intro i x hx
    exact absurd hx (List.not_mem_nil x)
  | cons c cs ih =>
    intro i x hx
    rcases List.mem_cons.mp hx with rfl | hx
    · exact ⟨{ x with index := i },
        List.mem_cons_self _ _, rfl, rfl, rfl⟩
    · obtain ⟨y, hy, h1, h2, h3⟩ := ih (i + 1) x hx
      exact ⟨y, List.mem_cons_of_mem _ hy, h1, h2, h3⟩

theorem extractGo_mem (bs : List (List Char)) :
    ∀ (i : Nat) (b : List Char) (st en : Nat) (t : List Char),
      b ∈ bs → cueOfBlock b = some (st, en, t) →
      ∃ c ∈ extractGo i bs, c.startMs = (st : Int) ∧
        c.endMs = (en : Int) ∧ c.text = t := by
  induction bs with
  | nil =>
    intro i b st en t hb
    exact absurd hb (List.not_mem_nil b)
  | cons b0 bs ih =>
    intro i b st en t hb hcb
    rcases List.mem_cons.mp hb with rfl | hb
    · unfold extractGo
      rw [hcb]
      exact ⟨⟨i, (st : Int), (en : Int), t⟩,
        List.mem_cons_self _ _, rfl, rfl, rfl⟩
    · unfold extractGo
      cases h : cueOfBlock b0 with
      | none => exact ih i b st en t hb hcb
      | some v =>
        obtain ⟨c, hc, h1, h2, h3⟩ := ih (i + 1) b st en t hb hcb
        exact ⟨c, List.mem_cons_of_mem _ hc, h1, h2, h3⟩

theorem cueOfBlock_last (b : List Char) (st en : Nat)
    (hlast : findTimeLineIdx ((splitOnNl b).map trimEndJs) =
      some (((splitOnNl b).map trimEndJs).length - 1))
    (ht : parseTimingLine
      (((splitOnNl b).map trimEndJs).getD
        (((splitOnNl b).map trimEndJs).length - 1) []) = some (st, en)) :
    cueOfBlock b = some (st, en, []) := by
  unfold cueOfBlock
  simp only [hlast, ht]
  have hdrop : ((splitOnNl b).map trimEndJs).drop
      ((((splitOnNl b).map trimEndJs).length - 1) + 1) = [] := by
    apply List.drop_eq_nil_of_le
    omega
  rw [hdrop]
  rfl

/-- C6: a block whose timing line parses and is the last line of the
block still contributes a cue, whose text is empty. -/
theorem parseSrt_keeps_empty_cue (s b : List Char) (st en : Nat)
    (hb : b ∈ blocksOf s)
    (hlast : findTimeLineIdx ((splitOnNl b).map trimEndJs) =
      some (((splitOnNl b).map trimEndJs).length - 1))
    (ht : parseTimingLine
      (((splitOnNl b).map trimEndJs).getD
        (((splitOnNl b).map trimEndJs).length - 1) []) = some (st, en)) :
    ∃ c ∈ parseSrt s, c.startMs = (st : Int) ∧ c.endMs = (en : Int) ∧
      c.text = [] := by
  have hcb := cueOfBlock_last b st en hlast ht
  rw [parseSrt_eq s]
  obtain ⟨c, hc, h1, h2, h3⟩ :=
    extractGo_mem (blocksOf s) 0 b st en [] hb hcb
  have hcs : c ∈ sortCues (extractCues (blocksOf s)) := by
    unfold sortCues
    exact (mem_foldl_insert (extractCues (blocksOf s)) [] c).mpr (Or.inr hc)
  obtain ⟨y, hy, g1, g2, g3⟩ :=
    mem_reindexGo (sortCues (extractCues (blocksOf s))) 0 c hcs
  exact ⟨y, hy, by rw [g1, h1], by rw [g2, h2], by rw [g3, h3]⟩


/-- Witness for C6: the document above yields a cue `[0, 1000]` with
empty text. -/
theorem parseSrt_keeps_empty_cue_witness :
    ∃ c ∈ parseSrt c6doc, c.startMs = ((0 : Nat) : Int) ∧
      c.endMs = ((1000 : Nat) : Int) ∧ c.text = [] :=
  parseSrt_keeps_empty_cue c6doc c6doc 0 1000 (by decide) (by decide)
    (by decide)

/-! ## The cue-text trimming behaviour (C7) -/



/-- C7 counterexample: the indented caption line `"  a"` comes out as
`"a"` — its leading whitespace is NOT preserved in the extracted cue
text, because the joined text is finally trimmed at both ends. -/
theorem parseSrt_trim_counterexample :
    (parseSrt c7doc).map (fun c => c.text) = [['a']] ∧
      (['a'] : List Char) ≠ [' ', ' ', 'a'] := by
  constructor
  · decide
  · decide

theorem mem_takeWhile_ws (l : List Char) :
    ∀ c ∈ l.takeWhile isJsWs, isJsWs c = true := by
  induction l with
  | nil => intro c hc; exact absurd hc (List.not_mem_nil c)
  | cons a t ih =>
    intro c hc
    by_cases ha : isJsWs a
    · rw [List.takeWhile_cons_of_pos ha] at hc
      rcases List.mem_cons.mp hc with rfl | hc
      · exact ha
      · exact ih c hc
    · rw [List.takeWhile_cons_of_neg (by simpa using ha)] at hc
      exact absurd hc (List.not_mem_nil c)

theorem trimEndJs_decomp (l : List Char) :
    ∃ tail, trimEndJs l ++ tail = l ∧ ∀ c ∈ tail, isJsWs c = true := by
  refine ⟨(l.reverse.takeWhile isJsWs).reverse, ?_, ?_⟩
  · unfold trimEndJs
    rw [← List.reverse_append, List.takeWhile_append_dropWhile,
      List.reverse_reverse]
  · intro c hc
    rw [List.mem_reverse] at hc
    exact mem_takeWhile_ws l.reverse c hc

theorem trimJs_decomp (l : List Char) :
    ∃ pre post, pre ++ (trimJs l ++ post) = l ∧
      (∀ c ∈ pre, isJsWs c = true) ∧ (∀ c ∈ post, isJsWs c = true) := by
  obtain ⟨tail, htail, hws⟩ := trimEndJs_decomp (l.dropWhile isJsWs)
  refine ⟨l.takeWhile isJsWs, tail, ?_, mem_takeWhile_ws l, hws⟩
  have he : trimJs l = trimEndJs (l.dropWhile isJsWs) := rfl
  rw [he, htail, List.takeWhile_append_dropWhile]

theorem cueOfBlock_text (b : List Char) (st en : Nat) (t : List Char)
    (h : cueOfBlock b = some (st, en, t)) :
    t = trimJs (cueBodyJoined b) := by
  unfold cueOfBlock at h
  unfold cueBodyJoined
  cases hidx : findTimeLineIdx ((splitOnNl b).map trimEndJs) with
  | none =>
    simp only [hidx] at h
    exact Option.noConfusion h
  | some idx =>
    simp only [hidx] at h ⊢
    cases htl : parseTimingLine
        (((splitOnNl b).map trimEndJs).getD idx []) with
    | none =>
      simp only [htl] at h
      exact Option.noConfusion h
    | some v =>
      simp only [htl, Option.some.injEq, Prod.mk.injEq] at h
      exact h.2.2.symm

/-- C7 (amended): per-line processing right-trims only, so leading
whitespace on caption lines survives the line split; but the joined
caption text is additionally trimmed at both ends, so whitespace at
the very start of the joined text (the first caption line's
indentation) and at its end is removed. -/
theorem parseSrt_trim_amended (b : List Char) (st en : Nat) (t : List Char)
    (h : cueOfBlock b = some (st, en, t)) :
    (∀ l ∈ splitOnNl b, ∃ tail, trimEndJs l ++ tail = l ∧
      ∀ c ∈ tail, isJsWs c = true) ∧
    ∃ pre post, pre ++ (t ++ post) = cueBodyJoined b ∧
      (∀ c ∈ pre, isJsWs c = true) ∧ (∀ c ∈ post, isJsWs c = true) := by
  refine ⟨fun l _ => trimEndJs_decomp l, ?_⟩
  obtain ⟨pre, post, heq, hpre, hpost⟩ := trimJs_decomp (cueBodyJoined b)
  rw [cueOfBlock_text b st en t h]
  exact ⟨pre, post, heq, hpre, hpost⟩

/-- Witness for C7 (amended): the indented one-line caption block. -/
theorem parseSrt_trim_amended_witness :
    (∀ l ∈ splitOnNl c7doc, ∃ tail, trimEndJs l ++ tail = l ∧
      ∀ c ∈ tail, isJsWs c = true) ∧
    ∃ pre post, pre ++ ((['a'] : List Char) ++ post) = cueBodyJoined c7doc ∧
      (∀ c ∈ pre, isJsWs c = true) ∧ (∀ c ∈ post, isJsWs c = true) :=
  parseSrt_trim_amended c7doc 0 1000 ['a'] (by decide)

end Hifdh
